import Mathlib

/-!
Verification of the `bitcoin_hashes` hex codec (`src/hex.rs`) and the tagged
SHA256 hash type (`src/sha256t.rs`), shallowly embedded in Lean.

Rust strings are modelled as `List Char` (Unicode scalar values); `str::len`,
which counts UTF-8 bytes, is modelled by `utf8Len`.  Bytes (`u8`) are `Nat`s
with the invariant `< 256` carried as hypotheses.  Fallible Rust functions
return `Except Error _`; functions that can additionally panic return
`Option (Except Error _)`, with `none` modelling a panic (an `unwrap` of
`None`, an out-of-bounds index, or a string slice not on a char boundary).
-/

namespace BitcoinHashes

/-- The crate's error taxonomy (`Error` in lib.rs), as used by hex.rs and
sha256t.rs: an invalid hex character, an odd-length hex string, or a
length mismatch carrying (expected, actual). -/
inductive Error where
  | InvalidChar (c : Char)
  | OddLengthString (n : Nat)
  | InvalidLength (expected : Nat) (actual : Nat)
deriving DecidableEq

instance {ε α : Type} [DecidableEq ε] [DecidableEq α] : DecidableEq (Except ε α) := fun a b =>
  match a, b with
  | .ok x, .ok y =>
      if h : x = y then isTrue (by rw [h]) else isFalse (fun hc => by cases hc; exact h rfl)
  | .error x, .error y =>
      if h : x = y then isTrue (by rw [h]) else isFalse (fun hc => by cases hc; exact h rfl)
  | .ok _, .error _ => isFalse (fun hc => by cases hc)
  | .error _, .ok _ => isFalse (fun hc => by cases hc)

/-- Number of bytes of the UTF-8 encoding of a scalar value; `str::len` in
Rust is the sum of these over the string's chars. -/
def charUtf8Size (c : Char) : Nat :=
  if c.toNat < 0x80 then 1
  else if c.toNat < 0x800 then 2
  else if c.toNat < 0x10000 then 3
  else 4

/-- Model of Rust `str::len`: the length in UTF-8 bytes. -/
def utf8Len (s : List Char) : Nat := (s.map charUtf8Size).sum

/-- Model of Rust `char::to_digit(16)`: `'0'..='9'` (scalar values 48..57)
map to 0..9, `'a'..='f'` (97..102) to 10..15, `'A'..='F'` (65..70) to
10..15, everything else is rejected. -/
def toDigit16 (c : Char) : Option Nat :=
  if 48 ≤ c.toNat ∧ c.toNat ≤ 57 then some (c.toNat - 48)
  else if 97 ≤ c.toNat ∧ c.toNat ≤ 102 then some (c.toNat - 87)
  else if 65 ≤ c.toNat ∧ c.toNat ≤ 70 then some (c.toNat - 55)
  else none

/-- The lowercase hex digit for a value `d < 16`, as emitted by Rust's
`{:02x}` formatting: 0..9 become `'0'..='9'` (48 + d), 10..15 become
`'a'..='f'` (87 + d). -/
def hexDigitChar (d : Nat) : Char :=
  if d < 10 then Char.ofNat (48 + d) else Char.ofNat (87 + d)

/-- The two characters `{:02x}` writes for one byte: high nibble then low
nibble, lowercase. -/
def encodeByte (b : Nat) : List Char := [hexDigitChar (b / 16), hexDigitChar (b % 16)]

/-- Model of `format_hex` (hex.rs:89-94), and hence of
`<[u8] as ToHex>::to_hex` (hex.rs:105-111): write each byte as two
lowercase hex characters, in input order. -/
def formatHex : List Nat → List Char
  | [] => []
  | b :: rest => encodeByte b ++ formatHex rest

/-- Model of `format_hex_reverse` (hex.rs:98-103): write each byte as two
lowercase hex characters, iterating the bytes in reverse order. -/
def formatHexReverse (data : List Nat) : List Char := formatHex data.reverse

/-- Model of the byte-indexed string slice `&s[n..]`: drop `n` UTF-8 bytes.
Returns `none` (a panic in Rust) when `n` is past the end of the string or
does not lie on a character boundary. -/
def byteDrop : Nat → List Char → Option (List Char)
  | 0, s => some s
  | _ + 1, [] => none
  | n + 1, c :: rest =>
      if charUtf8Size c ≤ n + 1 then byteDrop (n + 1 - charUtf8Size c) rest else none

/-- ASCII uppercasing of a single char (`'a'..='z'`, scalar values 97..122,
shift down by 32; everything else unchanged).  Rust's `str::to_uppercase`
agrees with this on ASCII characters, in particular on all hex digits. -/
def asciiUpper (c : Char) : Char :=
  if 97 ≤ c.toNat ∧ c.toNat ≤ 122 then Char.ofNat (c.toNat - 32) else c

/-- ASCII lowercasing of a single char (`'A'..='Z'`, scalar values 65..90,
shift up by 32; everything else unchanged). -/
def asciiLower (c : Char) : Char :=
  if 65 ≤ c.toNat ∧ c.toNat ≤ 90 then Char.ofNat (c.toNat + 32) else c

/-- Outcome of one call to `HexIterator::next` (hex.rs:64-84): the iterator
is exhausted (`stop`, Rust `None`), panics, or yields `Some(Ok byte)` /
`Some(Err e)` leaving the slice in the returned state. -/
inductive NextResult where
  | stop
  | panic
  | yieldOk (b : Nat) (rest : List Char)
  | yieldErr (e : Error) (rest : List Char)
deriving DecidableEq

/-- Model of `HexIterator::next` (hex.rs:64-84).  On an odd byte length it
yields `Err(OddLengthString(len))` without consuming anything; on an empty
slice it stops; otherwise it reads the first two chars (the second
`iter.next().unwrap()` panics when the even-byte-length slice holds a
single multi-byte char), validates the high char before the low char, and
on success yields `(hi << 4) + lo` (cast `as u8`) and advances the slice
by two bytes. -/
def hexIterNext (sl : List Char) : NextResult :=
  if utf8Len sl % 2 = 1 then .yieldErr (.OddLengthString (utf8Len sl)) sl
  else match sl with
    | [] => .stop
    | [_] => .panic
    | hi :: lo :: rest =>
      match toDigit16 hi, toDigit16 lo with
      | some h, some l =>
        match byteDrop 2 (hi :: lo :: rest) with
        | some next => .yieldOk (((h <<< 4) + l) % 256) next
        | none => .panic
      | none, _ => .yieldErr (.InvalidChar hi) (hi :: lo :: rest)
      | some _, none => .yieldErr (.InvalidChar lo) (hi :: lo :: rest)

/-- Overall outcome of draining a `HexIterator` through a `byte?`-style
loop: all yielded bytes in order, or the first yielded error, or a panic. -/
inductive RunResult where
  | panic
  | ok (bytes : List Nat)
  | err (e : Error)
deriving DecidableEq

/-- Fuelled driver for the loop `for byte in iter { ...byte?... }`: one unit
of fuel per yielded byte.  Since every `yieldOk` strictly shortens the
slice, `sl.length` units of fuel always suffice (`runAux_fuel` below), so
the `fuel = 0` branch is unreachable from `runFromHexLoop`. -/
def runAux : Nat → List Char → RunResult
  | fuel, sl =>
    match hexIterNext sl with
    | .stop => .ok []
    | .panic => .panic
    | .yieldErr e _ => .err e
    | .yieldOk b rest =>
      match fuel with
      | 0 => .panic
      | f + 1 =>
        match runAux f rest with
        | .ok bs => .ok (b :: bs)
        | r => r

/-- The loop `for byte in iter { vec.push(byte?) }` over `HexIterator`
(hex.rs:119-126 and hex.rs:136-141), collecting the decoded bytes. -/
def runFromHexLoop (sl : List Char) : RunResult := runAux sl.length sl

/-- Model of `<Vec<u8> as FromHex>::from_hex` (hex.rs:113-128): reject odd
byte lengths up front, then drain a `HexIterator` over the string.  `none`
models a panic inside the iterator. -/
def vecFromHex (s : List Char) : Option (Except Error (List Nat)) :=
  if utf8Len s % 2 = 1 then some (.error (.OddLengthString (utf8Len s)))
  else
    match runFromHexLoop s with
    | .ok bs => some (.ok bs)
    | .err e => some (.error e)
    | .panic => none

/-- Model of `<[u8; N] as FromHex>::from_hex` (hex.rs:130-153, instantiated
at the sizes listed in hex.rs:155-173): if the byte length is exactly `2N`,
drain the iterator writing into a zero-initialised array (`ret[n] = byte?`;
writing past index `N - 1` would be an out-of-bounds panic, modelled by the
`bs.length ≤ N` guard); otherwise report `OddLengthString` for odd lengths
and `InvalidLength(2N, len)` for even ones. -/
def arrayFromHex (N : Nat) (s : List Char) : Option (Except Error (List Nat)) :=
  if utf8Len s = 2 * N then
    match runFromHexLoop s with
    | .ok bs =>
        if bs.length ≤ N then some (.ok (bs ++ List.replicate (N - bs.length) 0)) else none
    | .err e => some (.error e)
    | .panic => none
  else if utf8Len s % 2 = 1 then some (.error (.OddLengthString (utf8Len s)))
  else some (.error (.InvalidLength (2 * N) (utf8Len s)))

/-- The sizes `impl_fromhex_array!` is instantiated at (hex.rs:155-173). -/
def hexArraySizes : List Nat := [2, 4, 6, 8, 10, 12, 14, 16, 20, 24, 28, 32, 33, 64, 65, 128, 256, 384, 512]

/-- `sha256t::Hash<T>` (sha256t.rs:33): 32 bytes plus a phantom tag type.
Equality is derived and compares only the bytes, like Rust's
`derive(PartialEq, Eq)` over `([u8; 32], PhantomData<T>)`. -/
structure Hash (T : Type) where
  inner : List Nat
deriving DecidableEq

/-- `Hash::<T>::LEN` (sha256t.rs:53). -/
def hashLEN : Nat := 32

/-- `Hash::<T>::DISPLAY_BACKWARD` (sha256t.rs:66). -/
def hashDISPLAY_BACKWARD : Bool := true

/-- Model of `Hash::<T>::from_slice` (sha256t.rs:55-63): exactly 32 bytes
are copied verbatim, any other length is `InvalidLength(LEN, actual)`. -/
def Hash.from_slice (T : Type) (sl : List Nat) : Except Error (Hash T) :=
  if sl.length ≠ 32 then .error (.InvalidLength hashLEN sl.length)
  else .ok ⟨sl⟩

/-- Modelled from the spec: the `LowerHex`/`Display` instances of
`sha256t::Hash` come from `hex_fmt_impl!` (sha256t.rs:35-37), whose macro
body lives in lib.rs, which is not part of src/.  Per the spec (§4.2,
"`to_hex` reverses the stored bytes then encodes") the formatter writes the
bytes via `format_hex_reverse` (hex.rs:98-103) because `DISPLAY_BACKWARD`
is true; the blanket `ToHex::to_hex` (hex.rs:33-38) then renders exactly
that formatter output as the string. -/
def Hash.to_hex {T : Type} (h : Hash T) : List Char :=
  if hashDISPLAY_BACKWARD then formatHexReverse h.inner else formatHex h.inner

/-- Model of the blanket `impl<T: Hash> FromHex` (hex.rs:40-53) at
`sha256t::Hash`: require byte length `2 * LEN = 64` (else
`InvalidLength(64, actual)`), decode through `Vec::<u8>::from_hex`,
reverse the bytes because `DISPLAY_BACKWARD` is true, and finish with
`from_slice`. -/
def Hash.from_hex (T : Type) (s : List Char) : Option (Except Error (Hash T)) :=
  if utf8Len s ≠ 2 * hashLEN then some (.error (.InvalidLength (2 * hashLEN) (utf8Len s)))
  else
    match vecFromHex s with
    | none => none
    | some (.error e) => some (.error e)
    | some (.ok v) =>
        some (Hash.from_slice T (if hashDISPLAY_BACKWARD then v.reverse else v))

/-- Second byte of a two-byte UTF-8 sequence with leading byte `b` (which
is in `0xC2..=0xDF`, excluding the overlong leads `0xC0`/`0xC1`): one
continuation byte in `0x80..=0xBF`; the scalar value is in `0x80..=0x7FF`. -/
def utf8Decode2 (b : Nat) : List Nat → Option (Nat × List Nat)
  | c1 :: rest2 =>
      if 0x80 ≤ c1 ∧ c1 ≤ 0xBF then some ((b - 0xC0) * 64 + (c1 - 0x80), rest2) else none
  | [] => none

/-- Continuation bytes of a three-byte UTF-8 sequence with leading byte `b`
in `0xE0..=0xEF`: the first continuation range depends on `b` so that
overlong encodings (`b = 0xE0`) and surrogates (`b = 0xED`) are rejected,
exactly as Rust's `str::from_utf8` does. -/
def utf8Decode3 (b : Nat) : List Nat → Option (Nat × List Nat)
  | c1 :: c2 :: rest2 =>
      if ((b = 0xE0 ∧ 0xA0 ≤ c1 ∧ c1 ≤ 0xBF) ∨
          (0xE1 ≤ b ∧ b ≤ 0xEC ∧ 0x80 ≤ c1 ∧ c1 ≤ 0xBF) ∨
          (b = 0xED ∧ 0x80 ≤ c1 ∧ c1 ≤ 0x9F) ∨
          (0xEE ≤ b ∧ b ≤ 0xEF ∧ 0x80 ≤ c1 ∧ c1 ≤ 0xBF)) ∧
         0x80 ≤ c2 ∧ c2 ≤ 0xBF then
        some ((b - 0xE0) * 4096 + (c1 - 0x80) * 64 + (c2 - 0x80), rest2)
      else none
  | _ => none

/-- Continuation bytes of a four-byte UTF-8 sequence with leading byte `b`
in `0xF0..=0xF4`: the first continuation range depends on `b` so that
overlong encodings (`b = 0xF0`) and values above `0x10FFFF` (`b = 0xF4`)
are rejected. -/
def utf8Decode4 (b : Nat) : List Nat → Option (Nat × List Nat)
  | c1 :: c2 :: c3 :: rest2 =>
      if ((b = 0xF0 ∧ 0x90 ≤ c1 ∧ c1 ≤ 0xBF) ∨
          (0xF1 ≤ b ∧ b ≤ 0xF3 ∧ 0x80 ≤ c1 ∧ c1 ≤ 0xBF) ∨
          (b = 0xF4 ∧ 0x80 ≤ c1 ∧ c1 ≤ 0x8F)) ∧
         0x80 ≤ c2 ∧ c2 ≤ 0xBF ∧ 0x80 ≤ c3 ∧ c3 ≤ 0xBF then
        some ((b - 0xF0) * 262144 + (c1 - 0x80) * 4096 + (c2 - 0x80) * 64 + (c3 - 0x80), rest2)
      else none
  | _ => none

/-- Decode one UTF-8 encoded scalar value from the front of a byte list:
returns the scalar value and the remaining bytes, or `none` on any invalid,
truncated, overlong or surrogate sequence. -/
def utf8DecodeOne : List Nat → Option (Nat × List Nat)
  | [] => none
  | b :: rest =>
    if b < 0x80 then some (b, rest)
    else if 0xC2 ≤ b ∧ b ≤ 0xDF then utf8Decode2 b rest
    else if 0xE0 ≤ b ∧ b ≤ 0xEF then utf8Decode3 b rest
    else if 0xF0 ≤ b ∧ b ≤ 0xF4 then utf8Decode4 b rest
    else none

/-- Fuelled driver decoding a whole byte list; each scalar consumes at
least one byte, so `v.length` units of fuel always suffice and the
`fuel = 0` branch with a nonempty list is unreachable from `utf8Decode`. -/
def utf8DecodeLoop : Nat → List Nat → Option (List Char)
  | _, [] => some []
  | 0, _ :: _ => none
  | f + 1, v =>
    match utf8DecodeOne v with
    | none => none
    | some (cp, rest) => (utf8DecodeLoop f rest).map (fun s => Char.ofNat cp :: s)

/-- Model of Rust `str::from_utf8` (strict UTF-8 decoding of a byte list):
rejects truncated sequences, continuation-byte errors, overlong encodings,
surrogate code points and values above `0x10FFFF`, exactly as Rust does. -/
def utf8Decode (v : List Nat) : Option (List Char) := utf8DecodeLoop v.length v

/-- Serde error values produced by the two visitors of sha256t.rs: a hex
error forwarded through `E::custom`, the `E::invalid_value` rejection of a
non-UTF-8 byte string (HexVisitor), or the `E::invalid_length(actual, "32")`
rejection of a wrong-length byte string (BytesVisitor). -/
inductive DeError where
  | custom (e : Error)
  | invalidValueBytes (v : List Nat)
  | invalidLength (actual : Nat)
deriving DecidableEq

/-- Model of `HexVisitor::visit_str` (sha256t.rs:112-118): hex-decode the
text via `Hash::from_hex`, mapping errors through `E::custom`. -/
def hexVisitorVisitStr (T : Type) (v : List Char) : Option (Except DeError (Hash T)) :=
  match Hash.from_hex T v with
  | none => none
  | some (.ok h) => some (.ok h)
  | some (.error e) => some (.error (.custom e))

/-- Model of `HexVisitor::visit_bytes` (sha256t.rs:100-110): if the byte
string is valid UTF-8, treat it as text and hex-decode it via
`Hash::from_hex`; otherwise reject with `E::invalid_value`. -/
def hexVisitorVisitBytes (T : Type) (v : List Nat) : Option (Except DeError (Hash T)) :=
  match utf8Decode v with
  | some s => hexVisitorVisitStr T s
  | none => some (.error (.invalidValueBytes v))

/-- Model of `BytesVisitor::visit_bytes` (sha256t.rs:132-140), used only in
the compact (non-human-readable) mode: construct via `from_slice`,
reporting any failure as `E::invalid_length(v.len(), "32")`. -/
def bytesVisitorVisitBytes (T : Type) (v : List Nat) : Except DeError (Hash T) :=
  match Hash.from_slice T v with
  | .ok h => .ok h
  | .error _ => .error (.invalidLength v.length)

/-- A value offered by an external serde deserializer to a visitor: either
a text value or a byte string. -/
inductive SerdeValue where
  | text (s : List Char)
  | bytes (v : List Nat)

/-- Human-readable deserialization of `Hash<T>` (sha256t.rs:143-151
dispatches to `deserialize_str(HexVisitor)` when `is_human_readable()`):
the external format presents either a text value (`visit_str`) or a byte
string (`visit_bytes`) to the `HexVisitor`. -/
def deserializeHumanReadable (T : Type) : SerdeValue → Option (Except DeError (Hash T))
  | .text s => hexVisitorVisitStr T s
  | .bytes v => hexVisitorVisitBytes T v

/-- States of a `HexIterator` along repeated raw calls to `next()`
(ignoring yielded values, as a bare `for`-iteration would): `yieldOk` and
`yieldErr` leave the iterator in the returned state, `stop` and `panic`
end the run (the state is left unchanged for bookkeeping). -/
def iterStates (sl : List Char) : Nat → List Char
  | 0 => sl
  | n + 1 =>
    iterStates
      (match hexIterNext sl with
       | .yieldOk _ rest => rest
       | .yieldErr _ rest => rest
       | _ => sl) n

/-! ### Helper lemmas -/

theorem toNat_ofNat_valid {n : Nat} (h : n.isValidChar) : (Char.ofNat n).toNat = n := by
  unfold Char.ofNat
  rw [dif_pos h]
  rfl

theorem toNat_ofNat_small {n : Nat} (h : n < 0xD800) : (Char.ofNat n).toNat = n :=
  toNat_ofNat_valid (Or.inl h)

theorem toDigit16_some {c : Char} {d : Nat} (h : toDigit16 c = some d) :
    d < 16 ∧ c.toNat < 128 := by
  unfold toDigit16 at h
  split_ifs at h with h1 h2 h3 <;> simp only [Option.some.injEq] at h <;> omega

theorem charUtf8Size_of_digit {c : Char} {d : Nat} (h : toDigit16 c = some d) :
    charUtf8Size c = 1 := by
  have hc := (toDigit16_some h).2
  unfold charUtf8Size
  rw [if_pos (by omega)]

theorem toDigit16_hexDigitChar : ∀ d, d < 16 → toDigit16 (hexDigitChar d) = some d := by decide

theorem charUtf8Size_hexDigitChar : ∀ d, d < 16 → charUtf8Size (hexDigitChar d) = 1 := by decide

theorem utf8Len_nil : utf8Len [] = 0 := rfl

theorem utf8Len_cons (c : Char) (s : List Char) :
    utf8Len (c :: s) = charUtf8Size c + utf8Len s := by
  simp [utf8Len]

theorem utf8Len_append (a b : List Char) : utf8Len (a ++ b) = utf8Len a + utf8Len b := by
  simp [utf8Len]

theorem charUtf8Size_pos (c : Char) : 0 < charUtf8Size c := by
  unfold charUtf8Size
  split_ifs <;> omega

theorem utf8Len_all_digits {s : List Char} (h : ∀ c ∈ s, (toDigit16 c).isSome) :
    utf8Len s = s.length := by
  induction s with
  | nil => rfl
  | cons c rest ih =>
    have hc : (toDigit16 c).isSome := h c (by simp)
    obtain ⟨d, hd⟩ := Option.isSome_iff_exists.mp hc
    rw [utf8Len_cons, charUtf8Size_of_digit hd, ih (fun x hx => h x (by simp [hx]))]
    simp [Nat.add_comm]

theorem encodeByte_digits {b : Nat} (hb : b < 256) :
    toDigit16 (hexDigitChar (b / 16)) = some (b / 16) ∧
    toDigit16 (hexDigitChar (b % 16)) = some (b % 16) :=
  ⟨toDigit16_hexDigitChar _ (by omega), toDigit16_hexDigitChar _ (by omega)⟩

theorem formatHex_append (a b : List Nat) :
    formatHex (a ++ b) = formatHex a ++ formatHex b := by
  induction a with
  | nil => rfl
  | cons x rest ih => simp [formatHex, ih]

theorem formatHex_length (bs : List Nat) : (formatHex bs).length = 2 * bs.length := by
  induction bs with
  | nil => rfl
  | cons b rest ih => simp [formatHex, encodeByte, ih]; omega

theorem utf8Len_formatHex {bs : List Nat} (h : ∀ b ∈ bs, b < 256) :
    utf8Len (formatHex bs) = 2 * bs.length := by
  induction bs with
  | nil => rfl
  | cons b rest ih =>
    have hb : b < 256 := h b (by simp)
    rw [formatHex]
    rw [encodeByte, List.cons_append, List.cons_append, List.nil_append,
      utf8Len_cons, utf8Len_cons,
      charUtf8Size_hexDigitChar _ (by omega : b / 16 < 16),
      charUtf8Size_hexDigitChar _ (by omega : b % 16 < 16),
      ih (fun x hx => h x (by simp [hx]))]
    simp
    omega

theorem byteDrop_length_le : ∀ (n : Nat) (s t : List Char), byteDrop n s = some t →
    t.length ≤ s.length := by
  intro n s
  induction s generalizing n with
  | nil =>
    intro t h
    cases n with
    | zero => simp only [byteDrop, Option.some.injEq] at h; simp [← h]
    | succ m => simp [byteDrop] at h
  | cons c rest ih =>
    intro t h
    cases n with
    | zero => simp only [byteDrop, Option.some.injEq] at h; simp [← h]
    | succ m =>
      simp only [byteDrop] at h
      split at h
      · exact le_trans (ih _ _ h) (by simp)
      · exact absurd h (by simp)

theorem byteDrop_two_digits {hi lo : Char} {dh dl : Nat} (rest : List Char)
    (hhi : toDigit16 hi = some dh) (hlo : toDigit16 lo = some dl) :
    byteDrop 2 (hi :: lo :: rest) = some rest := by
  have h1 := charUtf8Size_of_digit hhi
  have h2 := charUtf8Size_of_digit hlo
  simp [byteDrop, h1, h2]

theorem hexIterNext_odd {sl : List Char} (h : utf8Len sl % 2 = 1) :
    hexIterNext sl = .yieldErr (.OddLengthString (utf8Len sl)) sl := by
  unfold hexIterNext
  rw [if_pos h]

theorem hexIterNext_cons_digits {hi lo : Char} {dh dl : Nat} (rest : List Char)
    (hhi : toDigit16 hi = some dh) (hlo : toDigit16 lo = some dl)
    (hev : utf8Len (hi :: lo :: rest) % 2 = 0) :
    hexIterNext (hi :: lo :: rest) = .yieldOk (16 * dh + dl) rest := by
  unfold hexIterNext
  rw [if_neg (by omega)]
  simp only [hhi, hlo, byteDrop_two_digits rest hhi hlo]
  have h1 := (toDigit16_some hhi).1
  have h2 := (toDigit16_some hlo).1
  have harith : (dh <<< 4 + dl) % 256 = 16 * dh + dl := by
    rw [Nat.shiftLeft_eq]
    norm_num
    omega
  rw [harith]

theorem hexIterNext_cons_badHigh {hi lo : Char} (rest : List Char)
    (hhi : toDigit16 hi = none) (hev : utf8Len (hi :: lo :: rest) % 2 = 0) :
    hexIterNext (hi :: lo :: rest) = .yieldErr (.InvalidChar hi) (hi :: lo :: rest) := by
  unfold hexIterNext
  rw [if_neg (by omega)]
  simp only [hhi]

theorem hexIterNext_cons_badLow {hi lo : Char} {dh : Nat} (rest : List Char)
    (hhi : toDigit16 hi = some dh) (hlo : toDigit16 lo = none)
    (hev : utf8Len (hi :: lo :: rest) % 2 = 0) :
    hexIterNext (hi :: lo :: rest) = .yieldErr (.InvalidChar lo) (hi :: lo :: rest) := by
  unfold hexIterNext
  rw [if_neg (by omega)]
  simp only [hhi, hlo]

theorem hexIterNext_stop_inv {sl : List Char} (h : hexIterNext sl = .stop) : sl = [] := by
  unfold hexIterNext at h
  split at h
  · exact absurd h (by simp)
  · cases sl with
    | nil => rfl
    | cons hi tl =>
      cases tl with
      | nil => exact absurd h (by simp)
      | cons lo rest =>
        cases hhi : toDigit16 hi <;> simp only [hhi] at h
        · exact absurd h (by simp)
        · cases hlo : toDigit16 lo <;> simp only [hlo] at h
          · exact absurd h (by simp)
          · rcases hbd : byteDrop 2 (hi :: lo :: rest) <;> simp only [hbd] at h <;>
              exact absurd h (by simp)

theorem hexIterNext_yieldOk_inv {sl rest : List Char} {b : Nat}
    (h : hexIterNext sl = .yieldOk b rest) :
    ∃ hi lo dh dl, sl = hi :: lo :: rest ∧ toDigit16 hi = some dh ∧
      toDigit16 lo = some dl ∧ b = 16 * dh + dl ∧ utf8Len sl % 2 = 0 := by
  rcases hpar : utf8Len sl % 2 with _ | _ | k
  · cases sl with
    | nil => rw [show hexIterNext [] = .stop from rfl] at h; exact absurd h (by simp)
    | cons hi tl =>
      cases tl with
      | nil =>
        unfold hexIterNext at h
        rw [if_neg (by omega)] at h
        exact absurd h (by simp)
      | cons lo rest0 =>
        cases hhi : toDigit16 hi
        · rw [hexIterNext_cons_badHigh rest0 hhi hpar] at h
          exact absurd h (by simp)
        · cases hlo : toDigit16 lo
          · rw [hexIterNext_cons_badLow rest0 ‹toDigit16 hi = some _› hlo hpar] at h
            exact absurd h (by simp)
          · rw [hexIterNext_cons_digits rest0 ‹toDigit16 hi = some _› ‹toDigit16 lo = some _› hpar] at h
            simp only [NextResult.yieldOk.injEq] at h
            exact ⟨hi, lo, _, _, by rw [h.2], ‹toDigit16 hi = some _›, ‹toDigit16 lo = some _›,
              h.1.symm, rfl⟩
  · rw [hexIterNext_odd hpar] at h
    exact absurd h (by simp)
  · have := Nat.mod_lt (utf8Len sl) (show 0 < 2 by omega)
    omega

theorem runAux_unfold (fuel : Nat) (sl : List Char) :
    runAux fuel sl =
      match hexIterNext sl with
      | .stop => .ok []
      | .panic => .panic
      | .yieldErr e _ => .err e
      | .yieldOk b rest =>
        match fuel with
        | 0 => .panic
        | f + 1 =>
          match runAux f rest with
          | .ok bs => .ok (b :: bs)
          | r => r := by
  rw [runAux]

theorem runAux_stop {fuel : Nat} {sl : List Char} (h : hexIterNext sl = .stop) :
    runAux fuel sl = .ok [] := by
  rw [runAux_unfold, h]

theorem runAux_panic {fuel : Nat} {sl : List Char} (h : hexIterNext sl = .panic) :
    runAux fuel sl = .panic := by
  rw [runAux_unfold, h]

theorem runAux_err {fuel : Nat} {sl r : List Char} {e : Error}
    (h : hexIterNext sl = .yieldErr e r) : runAux fuel sl = .err e := by
  rw [runAux_unfold, h]

theorem runAux_yieldOk {fuel : Nat} {sl rest : List Char} {b : Nat}
    (h : hexIterNext sl = .yieldOk b rest) :
    runAux (fuel + 1) sl =
      match runAux fuel rest with
      | .ok bs => .ok (b :: bs)
      | r => r := by
  rw [runAux_unfold, h]

theorem runAux_fuel : ∀ (f₁ : Nat) (sl : List Char) (f₂ : Nat), sl.length ≤ f₁ →
    sl.length ≤ f₂ → runAux f₁ sl = runAux f₂ sl := by
  intro f₁
  induction f₁ with
  | zero =>
    intro sl f₂ h1 _
    have : sl = [] := List.length_eq_zero.mp (by omega)
    subst this
    rw [runAux_stop (show hexIterNext [] = NextResult.stop from rfl),
      runAux_stop (show hexIterNext [] = NextResult.stop from rfl)]
  | succ g ih =>
    intro sl f₂ h1 h2
    cases hstep : hexIterNext sl with
    | stop => rw [runAux_stop hstep, runAux_stop hstep]
    | panic => rw [runAux_panic hstep, runAux_panic hstep]
    | yieldErr e r => rw [runAux_err hstep, runAux_err hstep]
    | yieldOk b rest =>
      obtain ⟨hi, lo, dh, dl, hsl, _, _, _, _⟩ := hexIterNext_yieldOk_inv hstep
      have hlen : sl.length = rest.length + 2 := by rw [hsl]; simp
      obtain ⟨g₂, rfl⟩ : ∃ g₂, f₂ = g₂ + 1 := by
        cases f₂ with
        | zero => omega
        | succ g₂ => exact ⟨g₂, rfl⟩
      rw [runAux_yieldOk hstep, runAux_yieldOk hstep,
        ih rest g₂ (by omega) (by omega)]

theorem runFromHexLoop_of_step {sl rest : List Char} {b : Nat}
    (h : hexIterNext sl = .yieldOk b rest) :
    runFromHexLoop sl =
      match runFromHexLoop rest with
      | .ok bs => .ok (b :: bs)
      | r => r := by
  obtain ⟨hi, lo, dh, dl, hsl, _, _, _, _⟩ := hexIterNext_yieldOk_inv h
  have hlen : sl.length = rest.length + 2 := by rw [hsl]; simp
  unfold runFromHexLoop
  rw [hlen, show rest.length + 2 = (rest.length + 1) + 1 from rfl, runAux_yieldOk h,
    runAux_fuel (rest.length + 1) rest rest.length (by omega) (by omega)]

theorem runFromHexLoop_nil : runFromHexLoop [] = .ok [] := rfl

theorem runFromHexLoop_stop {sl : List Char} (h : hexIterNext sl = .stop) :
    runFromHexLoop sl = .ok [] := runAux_stop h

theorem runFromHexLoop_panic {sl : List Char} (h : hexIterNext sl = .panic) :
    runFromHexLoop sl = .panic := runAux_panic h

theorem runFromHexLoop_err {sl r : List Char} {e : Error}
    (h : hexIterNext sl = .yieldErr e r) : runFromHexLoop sl = .err e := runAux_err h

theorem runFromHexLoop_formatHex : ∀ (bs : List Nat), (∀ b ∈ bs, b < 256) →
    runFromHexLoop (formatHex bs) = .ok bs := by
  intro bs
  induction bs with
  | nil => intro _; rfl
  | cons b rest ih =>
    intro h
    have hb : b < 256 := h b (by simp)
    have hrest : ∀ x ∈ rest, x < 256 := fun x hx => h x (by simp [hx])
    have hd := toDigit16_hexDigitChar (b / 16) (by omega)
    have hl := toDigit16_hexDigitChar (b % 16) (by omega)
    have hev : utf8Len (hexDigitChar (b / 16) :: hexDigitChar (b % 16) :: formatHex rest) % 2
        = 0 := by
      rw [utf8Len_cons, utf8Len_cons, charUtf8Size_hexDigitChar _ (by omega),
        charUtf8Size_hexDigitChar _ (by omega), utf8Len_formatHex hrest]
      omega
    have hstep := hexIterNext_cons_digits (formatHex rest) hd hl hev
    show runFromHexLoop (hexDigitChar (b / 16) :: hexDigitChar (b % 16) :: formatHex rest) = _
    rw [runFromHexLoop_of_step hstep, ih hrest]
    show RunResult.ok ((16 * (b / 16) + b % 16) :: rest) = _
    rw [Nat.div_add_mod]

theorem runFromHexLoop_ok_length : ∀ (n : Nat) (sl : List Char) (bs : List Nat),
    sl.length ≤ n → runFromHexLoop sl = .ok bs → 2 * bs.length = utf8Len sl := by
  intro n
  induction n with
  | zero =>
    intro sl bs h1 h2
    have hnil : sl = [] := List.length_eq_zero.mp (by omega)
    subst hnil
    rw [runFromHexLoop_nil] at h2
    cases h2
    rfl
  | succ g ih =>
    intro sl bs h1 h2
    cases hstep : hexIterNext sl with
    | stop =>
      have hnil : sl = [] := hexIterNext_stop_inv hstep
      subst hnil
      rw [runFromHexLoop_nil] at h2
      cases h2
      rfl
    | panic => rw [runFromHexLoop_panic hstep] at h2; exact absurd h2 (by simp)
    | yieldErr e r => rw [runFromHexLoop_err hstep] at h2; exact absurd h2 (by simp)
    | yieldOk b rest =>
      obtain ⟨hi, lo, dh, dl, hsl, hhi, hlo, hb, hev⟩ := hexIterNext_yieldOk_inv hstep
      rw [runFromHexLoop_of_step hstep] at h2
      cases hr : runFromHexLoop rest <;> rw [hr] at h2
      · exact absurd h2 (by simp)
      case ok bs' =>
        simp only [RunResult.ok.injEq] at h2
        subst h2
        have hlen : sl.length = rest.length + 2 := by rw [hsl]; simp
        have := ih rest bs' (by omega) hr
        rw [hsl, utf8Len_cons, utf8Len_cons, charUtf8Size_of_digit hhi,
          charUtf8Size_of_digit hlo]
        simp only [List.length_cons]
        omega
      · exact absurd h2 (by simp)

theorem runFromHexLoop_all_digits : ∀ (n : Nat) (sl : List Char), sl.length ≤ n →
    (∀ c ∈ sl, (toDigit16 c).isSome) → utf8Len sl % 2 = 0 →
    ∃ bs, runFromHexLoop sl = .ok bs := by
  intro n
  induction n with
  | zero =>
    intro sl h1 _ _
    have hnil : sl = [] := List.length_eq_zero.mp (by omega)
    subst hnil
    exact ⟨[], rfl⟩
  | succ g ih =>
    intro sl h1 hdig hev
    cases sl with
    | nil => exact ⟨[], rfl⟩
    | cons hi tl =>
      cases tl with
      | nil =>
        obtain ⟨d, hd⟩ := Option.isSome_iff_exists.mp (hdig hi (by simp))
        rw [utf8Len_cons, utf8Len_nil, charUtf8Size_of_digit hd] at hev
        omega
      | cons lo rest =>
        obtain ⟨dh, hhi⟩ := Option.isSome_iff_exists.mp (hdig hi (by simp))
        obtain ⟨dl, hlo⟩ := Option.isSome_iff_exists.mp (hdig lo (by simp))
        have hstep := hexIterNext_cons_digits rest hhi hlo hev
        have hrest : ∀ c ∈ rest, (toDigit16 c).isSome :=
          fun c hc => hdig c (by simp [hc])
        have hevr : utf8Len rest % 2 = 0 := by
          rw [utf8Len_cons, utf8Len_cons, charUtf8Size_of_digit hhi,
            charUtf8Size_of_digit hlo] at hev
          omega
        obtain ⟨bs', hbs'⟩ := ih rest (by simp at h1; omega) hrest hevr
        refine ⟨(16 * dh + dl) :: bs', ?_⟩
        rw [runFromHexLoop_of_step hstep, hbs']

theorem toDigit16_asciiUpper {c : Char} {d : Nat} (h : toDigit16 c = some d) :
    toDigit16 (asciiUpper c) = some d := by
  unfold toDigit16 at h
  unfold asciiUpper
  split_ifs at h with h1 h2 h3 <;> simp only [Option.some.injEq] at h
  · rw [if_neg (by omega)]
    unfold toDigit16
    rw [if_pos h1, h]
  · rw [if_pos (by omega)]
    have hv : (Char.ofNat (c.toNat - 32)).toNat = c.toNat - 32 := toNat_ofNat_small (by omega)
    unfold toDigit16
    rw [hv, if_neg (by omega), if_neg (by omega), if_pos (by omega)]
    simp only [Option.some.injEq]
    omega
  · rw [if_neg (by omega)]
    unfold toDigit16
    rw [if_neg (by omega), if_neg (by omega), if_pos h3, h]

theorem charUtf8Size_asciiUpper (c : Char) : charUtf8Size (asciiUpper c) = charUtf8Size c := by
  unfold asciiUpper
  split_ifs with h
  · have hv : (Char.ofNat (c.toNat - 32)).toNat = c.toNat - 32 := toNat_ofNat_small (by omega)
    unfold charUtf8Size
    rw [hv, if_pos (by omega), if_pos (by omega)]
  · rfl

theorem utf8Len_map_asciiUpper (s : List Char) : utf8Len (s.map asciiUpper) = utf8Len s := by
  induction s with
  | nil => rfl
  | cons c rest ih =>
    rw [List.map_cons, utf8Len_cons, utf8Len_cons, charUtf8Size_asciiUpper, ih]

theorem runFromHexLoop_map_asciiUpper : ∀ (n : Nat) (sl : List Char) (bs : List Nat),
    sl.length ≤ n → runFromHexLoop sl = .ok bs →
    runFromHexLoop (sl.map asciiUpper) = .ok bs := by
  intro n
  induction n with
  | zero =>
    intro sl bs h1 h2
    have hnil : sl = [] := List.length_eq_zero.mp (by omega)
    subst hnil
    rw [runFromHexLoop_nil] at h2
    cases h2
    rfl
  | succ g ih =>
    intro sl bs h1 h2
    cases hstep : hexIterNext sl with
    | stop =>
      have hnil : sl = [] := hexIterNext_stop_inv hstep
      subst hnil
      rw [runFromHexLoop_nil] at h2
      cases h2
      rfl
    | panic => rw [runFromHexLoop_panic hstep] at h2; exact absurd h2 (by simp)
    | yieldErr e r => rw [runFromHexLoop_err hstep] at h2; exact absurd h2 (by simp)
    | yieldOk b rest =>
      obtain ⟨hi, lo, dh, dl, hsl, hhi, hlo, hb, hev⟩ := hexIterNext_yieldOk_inv hstep
      rw [runFromHexLoop_of_step hstep] at h2
      cases hr : runFromHexLoop rest <;> rw [hr] at h2
      · exact absurd h2 (by simp)
      case ok bs' =>
        simp only [RunResult.ok.injEq] at h2
        subst h2
        subst hsl
        have hevU : utf8Len (asciiUpper hi :: asciiUpper lo :: rest.map asciiUpper) % 2 = 0 := by
          rw [utf8Len_cons, utf8Len_cons, charUtf8Size_asciiUpper, charUtf8Size_asciiUpper,
            utf8Len_map_asciiUpper]
          rw [utf8Len_cons, utf8Len_cons] at hev
          omega
        have hstepU := hexIterNext_cons_digits (rest.map asciiUpper)
          (toDigit16_asciiUpper hhi) (toDigit16_asciiUpper hlo) hevU
        rw [List.map_cons, List.map_cons, runFromHexLoop_of_step hstepU,
          ih rest bs' (by simp at h1; omega) hr, hb]
      · exact absurd h2 (by simp)

theorem hexDigitChar_asciiLower {c : Char} {d : Nat} (h : toDigit16 c = some d) :
    hexDigitChar d = asciiLower c := by
  unfold toDigit16 at h
  unfold hexDigitChar asciiLower
  split_ifs at h with h1 h2 h3 <;> simp only [Option.some.injEq] at h <;> subst h
  · rw [if_pos (by omega), if_neg (by omega)]
    exact (congrArg Char.ofNat (by omega)).trans (Char.ofNat_toNat c)
  · rw [if_neg (by omega), if_neg (by omega)]
    exact (congrArg Char.ofNat (by omega)).trans (Char.ofNat_toNat c)
  · rw [if_neg (by omega), if_pos (by omega)]
    exact congrArg Char.ofNat (by omega)

theorem formatHex_of_decode : ∀ (n : Nat) (sl : List Char) (bs : List Nat), sl.length ≤ n →
    runFromHexLoop sl = .ok bs →
    formatHex bs = sl.map asciiLower ∧ ∀ b ∈ bs, b < 256 := by
  intro n
  induction n with
  | zero =>
    intro sl bs h1 h2
    have hnil : sl = [] := List.length_eq_zero.mp (by omega)
    subst hnil
    rw [runFromHexLoop_nil] at h2
    cases h2
    exact ⟨rfl, by simp⟩
  | succ g ih =>
    intro sl bs h1 h2
    cases hstep : hexIterNext sl with
    | stop =>
      have hnil : sl = [] := hexIterNext_stop_inv hstep
      subst hnil
      rw [runFromHexLoop_nil] at h2
      cases h2
      exact ⟨rfl, by simp⟩
    | panic => rw [runFromHexLoop_panic hstep] at h2; exact absurd h2 (by simp)
    | yieldErr e r => rw [runFromHexLoop_err hstep] at h2; exact absurd h2 (by simp)
    | yieldOk b rest =>
      obtain ⟨hi, lo, dh, dl, hsl, hhi, hlo, hb, hev⟩ := hexIterNext_yieldOk_inv hstep
      rw [runFromHexLoop_of_step hstep] at h2
      cases hr : runFromHexLoop rest <;> rw [hr] at h2
      · exact absurd h2 (by simp)
      case ok bs' =>
        simp only [RunResult.ok.injEq] at h2
        subst h2
        subst hsl
        have hdh := (toDigit16_some hhi).1
        have hdl := (toDigit16_some hlo).1
        obtain ⟨ihEq, ihLt⟩ := ih rest bs' (by simp at h1; omega) hr
        constructor
        · rw [List.map_cons, List.map_cons]
          show encodeByte b ++ formatHex bs' = _
          rw [encodeByte, ihEq]
          have hdiv : b / 16 = dh := by omega
          have hmod : b % 16 = dl := by omega
          rw [hdiv, hmod, hexDigitChar_asciiLower hhi, hexDigitChar_asciiLower hlo]
          rfl
        · intro x hx
          rcases List.mem_cons.mp hx with hx | hx
          · subst hx; omega
          · exact ihLt x hx
      · exact absurd h2 (by simp)

theorem runFromHexLoop_append_err : ∀ (n : Nat) (p t : List Char) (e : Error), p.length ≤ n →
    (∀ c ∈ p, (toDigit16 c).isSome) → p.length % 2 = 0 → utf8Len t % 2 = 0 →
    runFromHexLoop t = .err e → runFromHexLoop (p ++ t) = .err e := by
  intro n
  induction n with
  | zero =>
    intro p t e h1 _ _ _ h5
    have hnil : p = [] := List.length_eq_zero.mp (by omega)
    subst hnil
    exact h5
  | succ g ih =>
    intro p t e h1 hdig hpar hev h5
    cases p with
    | nil => exact h5
    | cons a p1 =>
      cases p1 with
      | nil => simp at hpar
      | cons b p' =>
        obtain ⟨da, ha⟩ := Option.isSome_iff_exists.mp (hdig a (by simp))
        obtain ⟨db, hbd⟩ := Option.isSome_iff_exists.mp (hdig b (by simp))
        have hdig' : ∀ c ∈ p', (toDigit16 c).isSome := fun c hc => hdig c (by simp [hc])
        have hlen' : utf8Len (p' ++ t) % 2 = 0 := by
          rw [utf8Len_append, utf8Len_all_digits hdig']
          simp only [List.length_cons] at hpar
          omega
        have hevTot : utf8Len (a :: b :: (p' ++ t)) % 2 = 0 := by
          rw [utf8Len_cons, utf8Len_cons, charUtf8Size_of_digit ha,
            charUtf8Size_of_digit hbd]
          omega
        have hstep := hexIterNext_cons_digits (p' ++ t) ha hbd hevTot
        show runFromHexLoop (a :: b :: (p' ++ t)) = .err e
        rw [runFromHexLoop_of_step hstep,
          ih p' t e (by simp at h1; omega) hdig' (by simp only [List.length_cons] at hpar; omega)
            hev h5]

theorem vecFromHex_of_run {s : List Char} {bs : List Nat} (hev : utf8Len s % 2 = 0)
    (h : runFromHexLoop s = .ok bs) : vecFromHex s = some (.ok bs) := by
  unfold vecFromHex
  rw [if_neg (by omega), h]

theorem vecFromHex_err_of_run {s : List Char} {e : Error} (hev : utf8Len s % 2 = 0)
    (h : runFromHexLoop s = .err e) : vecFromHex s = some (.error e) := by
  unfold vecFromHex
  rw [if_neg (by omega), h]

theorem vecFromHex_ok_inv {s : List Char} {bs : List Nat}
    (h : vecFromHex s = some (.ok bs)) :
    utf8Len s % 2 = 0 ∧ runFromHexLoop s = .ok bs := by
  unfold vecFromHex at h
  split_ifs at h with hodd
  · exact absurd h (by simp)
  · refine ⟨by omega, ?_⟩
    cases hr : runFromHexLoop s <;> rw [hr] at h
    · exact absurd h (by simp)
    · simp only [Option.some.injEq, Except.ok.injEq] at h
      rw [h]
    · exact absurd h (by simp)

theorem utf8DecodeOne_consumes {v : List Nat} {cp : Nat} {rest : List Nat}
    (h : utf8DecodeOne v = some (cp, rest)) :
    v.length = rest.length + charUtf8Size (Char.ofNat cp) := by
  cases v with
  | nil => exact absurd h (by simp [utf8DecodeOne])
  | cons b r =>
    rw [show utf8DecodeOne (b :: r) =
        (if b < 0x80 then some (b, r)
         else if 0xC2 ≤ b ∧ b ≤ 0xDF then utf8Decode2 b r
         else if 0xE0 ≤ b ∧ b ≤ 0xEF then utf8Decode3 b r
         else if 0xF0 ≤ b ∧ b ≤ 0xF4 then utf8Decode4 b r
         else none) from rfl] at h
    split_ifs at h with hb1 hb2 hb3 hb4
    · simp only [Option.some.injEq, Prod.mk.injEq] at h
      obtain ⟨rfl, rfl⟩ := h
      have hv : (Char.ofNat b).toNat = b := toNat_ofNat_small (by omega)
      unfold charUtf8Size
      rw [hv, if_pos (by omega)]
      simp
    · cases r with
      | nil => exact absurd h (by simp [utf8Decode2])
      | cons c1 rest2 =>
        rw [show utf8Decode2 b (c1 :: rest2) =
            (if 0x80 ≤ c1 ∧ c1 ≤ 0xBF then some ((b - 0xC0) * 64 + (c1 - 0x80), rest2)
             else none) from rfl] at h
        split_ifs at h with hc1
        · simp only [Option.some.injEq, Prod.mk.injEq] at h
          obtain ⟨rfl, rfl⟩ := h
          have hv := toNat_ofNat_small
            (show (b - 0xC0) * 64 + (c1 - 0x80) < 0xD800 by omega)
          unfold charUtf8Size
          rw [hv, if_neg (by omega), if_pos (by omega)]
          simp
    · cases r with
      | nil => exact absurd h (by simp [utf8Decode3])
      | cons c1 r1 =>
        cases r1 with
        | nil => exact absurd h (by simp [utf8Decode3])
        | cons c2 rest2 =>
          rw [show utf8Decode3 b (c1 :: c2 :: rest2) =
              (if ((b = 0xE0 ∧ 0xA0 ≤ c1 ∧ c1 ≤ 0xBF) ∨
                   (0xE1 ≤ b ∧ b ≤ 0xEC ∧ 0x80 ≤ c1 ∧ c1 ≤ 0xBF) ∨
                   (b = 0xED ∧ 0x80 ≤ c1 ∧ c1 ≤ 0x9F) ∨
                   (0xEE ≤ b ∧ b ≤ 0xEF ∧ 0x80 ≤ c1 ∧ c1 ≤ 0xBF)) ∧
                  0x80 ≤ c2 ∧ c2 ≤ 0xBF then
                 some ((b - 0xE0) * 4096 + (c1 - 0x80) * 64 + (c2 - 0x80), rest2)
               else none) from rfl] at h
          split_ifs at h with hcond
          · simp only [Option.some.injEq, Prod.mk.injEq] at h
            obtain ⟨rfl, rfl⟩ := h
            have hvalid : Nat.isValidChar ((b - 0xE0) * 4096 + (c1 - 0x80) * 64 + (c2 - 0x80)) := by
              rcases hcond with ⟨hc | hc | hc | hc, hc2⟩
              · exact Or.inl (by omega)
              · exact Or.inl (by omega)
              · exact Or.inl (by omega)
              · exact Or.inr ⟨by omega, by omega⟩
            have hrange : 0x800 ≤ (b - 0xE0) * 4096 + (c1 - 0x80) * 64 + (c2 - 0x80) ∧
                (b - 0xE0) * 4096 + (c1 - 0x80) * 64 + (c2 - 0x80) < 0x10000 := by
              rcases hcond with ⟨hc | hc | hc | hc, hc2⟩ <;> omega
            have hv := toNat_ofNat_valid hvalid
            unfold charUtf8Size
            rw [hv, if_neg (by omega), if_neg (by omega), if_pos (by omega)]
            simp
    · cases r with
      | nil => exact absurd h (by simp [utf8Decode4])
      | cons c1 r1 =>
        cases r1 with
        | nil => exact absurd h (by simp [utf8Decode4])
        | cons c2 r2 =>
          cases r2 with
          | nil => exact absurd h (by simp [utf8Decode4])
          | cons c3 rest2 =>
            rw [show utf8Decode4 b (c1 :: c2 :: c3 :: rest2) =
                (if ((b = 0xF0 ∧ 0x90 ≤ c1 ∧ c1 ≤ 0xBF) ∨
                     (0xF1 ≤ b ∧ b ≤ 0xF3 ∧ 0x80 ≤ c1 ∧ c1 ≤ 0xBF) ∨
                     (b = 0xF4 ∧ 0x80 ≤ c1 ∧ c1 ≤ 0x8F)) ∧
                    0x80 ≤ c2 ∧ c2 ≤ 0xBF ∧ 0x80 ≤ c3 ∧ c3 ≤ 0xBF then
                   some ((b - 0xF0) * 262144 + (c1 - 0x80) * 4096 + (c2 - 0x80) * 64 +
                     (c3 - 0x80), rest2)
                 else none) from rfl] at h
            split_ifs at h with hcond
            · simp only [Option.some.injEq, Prod.mk.injEq] at h
              obtain ⟨rfl, rfl⟩ := h
              have hrange : 0x10000 ≤ (b - 0xF0) * 262144 + (c1 - 0x80) * 4096 +
                    (c2 - 0x80) * 64 + (c3 - 0x80) ∧
                  (b - 0xF0) * 262144 + (c1 - 0x80) * 4096 + (c2 - 0x80) * 64 + (c3 - 0x80)
                    < 0x110000 := by
                rcases hcond with ⟨hc | hc | hc, hc2, hc3⟩ <;> omega
              have hvalid : Nat.isValidChar ((b - 0xF0) * 262144 + (c1 - 0x80) * 4096 +
                  (c2 - 0x80) * 64 + (c3 - 0x80)) := Or.inr ⟨by omega, by omega⟩
              have hv := toNat_ofNat_valid hvalid
              unfold charUtf8Size
              rw [hv, if_neg (by omega), if_neg (by omega), if_neg (by omega)]
              simp

theorem utf8DecodeLoop_utf8Len : ∀ (fuel : Nat) (v : List Nat) (s : List Char),
    utf8DecodeLoop fuel v = some s → utf8Len s = v.length := by
  intro fuel
  induction fuel with
  | zero =>
    intro v s h
    cases v with
    | nil => cases h; rfl
    | cons b r => exact absurd h (by simp [utf8DecodeLoop])
  | succ f ih =>
    intro v s h
    cases v with
    | nil => cases h; rfl
    | cons b r =>
      rw [show utf8DecodeLoop (f + 1) (b :: r) =
          (match utf8DecodeOne (b :: r) with
           | none => none
           | some (cp, rest) => (utf8DecodeLoop f rest).map (fun s => Char.ofNat cp :: s))
          from rfl] at h
      cases hone : utf8DecodeOne (b :: r) <;> rw [hone] at h
      · exact absurd h (by simp)
      case some pr =>
        obtain ⟨cp, rest⟩ := pr
        rw [Option.map_eq_some'] at h
        obtain ⟨s', hs', rfl⟩ := h
        rw [utf8Len_cons, ih rest s' hs']
        have hcons := utf8DecodeOne_consumes hone
        simp only [List.length_cons] at hcons ⊢
        omega

theorem utf8Decode_utf8Len {v : List Nat} {s : List Char}
    (h : utf8Decode v = some s) : utf8Len s = v.length :=
  utf8DecodeLoop_utf8Len v.length v s h

/-! ### Claims -/

/-- C1: Hex round-trip: decoding the hex encoding of any byte sequence B
returns B; decoding is case-insensitive: a string that decodes successfully
decodes to the same bytes after ASCII uppercasing; and re-encoding the
decoded bytes yields exactly the ASCII-lowercased input, so encoding always
emits lowercase and re-encoding a decoded uppercase string yields the
lowercase form. -/
theorem C1_hex_round_trip :
    (∀ bs : List Nat, (∀ b ∈ bs, b < 256) → vecFromHex (formatHex bs) = some (.ok bs)) ∧
    (∀ (s : List Char) (bs : List Nat), vecFromHex s = some (.ok bs) →
      vecFromHex (s.map asciiUpper) = some (.ok bs) ∧ formatHex bs = s.map asciiLower) := by
  constructor
  · intro bs h
    have hev : utf8Len (formatHex bs) % 2 = 0 := by rw [utf8Len_formatHex h]; omega
    exact vecFromHex_of_run hev (runFromHexLoop_formatHex bs h)
  · intro s bs h
    obtain ⟨hev, hrun⟩ := vecFromHex_ok_inv h
    refine ⟨?_, (formatHex_of_decode s.length s bs le_rfl hrun).1⟩
    have hevU : utf8Len (s.map asciiUpper) % 2 = 0 := by
      rw [utf8Len_map_asciiUpper]; exact hev
    exact vecFromHex_of_run hevU (runFromHexLoop_map_asciiUpper s.length s bs le_rfl hrun)

/-- Witness for C1: the concrete bytes [1, 0xAB] round-trip, and the
uppercase two-char string "0B" decodes to [11] whose re-encoding is the
lowercase "0b". -/
theorem C1_hex_round_trip_witness :
    vecFromHex (formatHex [1, 171]) = some (.ok [1, 171]) ∧
    (vecFromHex ([Char.ofNat 48, Char.ofNat 66].map asciiUpper) = some (.ok [11]) ∧
      formatHex [11] = [Char.ofNat 48, Char.ofNat 66].map asciiLower) :=
  ⟨C1_hex_round_trip.1 [1, 171] (by decide),
   C1_hex_round_trip.2 [Char.ofNat 48, Char.ofNat 66] [11] (by decide)⟩

/-- C2: TaggedHash round-trip: for every 32-byte sequence S and every tag
type T, `from_hex (to_hex (from_slice S))` equals `from_slice S`, and the
`to_hex` output has length 64. -/
theorem C2_tagged_hash_round_trip : ∀ (T : Type) (S : List Nat), S.length = 32 →
    (∀ b ∈ S, b < 256) →
    Hash.from_slice T S = .ok ⟨S⟩ ∧
    Hash.from_hex T (Hash.to_hex (⟨S⟩ : Hash T)) = some (Hash.from_slice T S) ∧
    (Hash.to_hex (⟨S⟩ : Hash T)).length = 64 := by
  intro T S hlen hbytes
  have hslice : Hash.from_slice T S = .ok ⟨S⟩ := by
    unfold Hash.from_slice
    rw [if_neg (by omega)]
  have hrevB : ∀ b ∈ S.reverse, b < 256 := fun b hb => hbytes b (List.mem_reverse.mp hb)
  have htohex : Hash.to_hex (⟨S⟩ : Hash T) = formatHex S.reverse := rfl
  have hlenHex : utf8Len (formatHex S.reverse) = 64 := by
    rw [utf8Len_formatHex hrevB, List.length_reverse, hlen]
  refine ⟨hslice, ?_, ?_⟩
  · rw [htohex]
    have hvec : vecFromHex (formatHex S.reverse) = some (.ok S.reverse) :=
      vecFromHex_of_run (by omega) (runFromHexLoop_formatHex S.reverse hrevB)
    simp only [Hash.from_hex, hashLEN, hashDISPLAY_BACKWARD]
    rw [if_neg (by omega), hvec]
    simp only [if_true, List.reverse_reverse, hslice]
  · rw [htohex, formatHex_length, List.length_reverse, hlen]

/-- Witness for C2 at the all-zero 32-byte sequence with the unit tag. -/
theorem C2_tagged_hash_round_trip_witness :
    Hash.from_slice Unit (List.replicate 32 0) = .ok ⟨List.replicate 32 0⟩ ∧
    Hash.from_hex Unit (Hash.to_hex (⟨List.replicate 32 0⟩ : Hash Unit)) =
      some (Hash.from_slice Unit (List.replicate 32 0)) ∧
    (Hash.to_hex (⟨List.replicate 32 0⟩ : Hash Unit)).length = 64 :=
  C2_tagged_hash_round_trip Unit (List.replicate 32 0) (by decide) (by decide)

/-- C3: TaggedHash::from_hex contract: any input whose byte length is not
64 fails with InvalidLength(64, actual); a 64-byte input is decoded through
the hex codec into exactly 32 bytes, which are reversed before the value is
constructed; hex-codec errors on 64-byte inputs are propagated unchanged. -/
theorem C3_from_hex_contract : ∀ (T : Type) (s : List Char),
    (utf8Len s ≠ 64 → Hash.from_hex T s = some (.error (.InvalidLength 64 (utf8Len s)))) ∧
    (∀ v, utf8Len s = 64 → vecFromHex s = some (.ok v) →
      v.length = 32 ∧ Hash.from_hex T s = some (.ok ⟨v.reverse⟩)) ∧
    (∀ e, utf8Len s = 64 → vecFromHex s = some (.error e) →
      Hash.from_hex T s = some (.error e)) := by
  intro T s
  refine ⟨?_, ?_, ?_⟩
  · intro hne
    simp only [Hash.from_hex, hashLEN]
    rw [if_pos (show utf8Len s ≠ 2 * 32 by omega)]
  · intro v h64 hvec
    obtain ⟨hev, hrun⟩ := vecFromHex_ok_inv hvec
    have hvlen : v.length = 32 := by
      have := runFromHexLoop_ok_length s.length s v le_rfl hrun
      omega
    refine ⟨hvlen, ?_⟩
    simp only [Hash.from_hex, hashLEN, hashDISPLAY_BACKWARD]
    rw [if_neg (by omega), hvec]
    simp only [if_true]
    unfold Hash.from_slice
    rw [if_neg (by simp [hvlen])]
  · intro e h64 hvec
    simp only [Hash.from_hex, hashLEN]
    rw [if_neg (by omega), hvec]

/-- Witness for C3: a 63-char input fails with InvalidLength(64, 63); the
64-char all-zero string decodes to 32 zero bytes (reversal of zeros is
invisible but the ok-path is exercised); a 64-char string starting with Z
propagates InvalidChar Z. -/
theorem C3_from_hex_contract_witness :
    Hash.from_hex Unit (List.replicate 63 (Char.ofNat 48)) =
      some (.error (.InvalidLength 64 (utf8Len (List.replicate 63 (Char.ofNat 48))))) ∧
    (List.replicate 32 0).length = 32 ∧
    Hash.from_hex Unit (List.replicate 64 (Char.ofNat 48)) =
      some (.ok ⟨(List.replicate 32 0).reverse⟩) ∧
    Hash.from_hex Unit (Char.ofNat 90 :: List.replicate 63 (Char.ofNat 48)) =
      some (.error (.InvalidChar (Char.ofNat 90))) := by
  have h2 := (C3_from_hex_contract Unit (List.replicate 64 (Char.ofNat 48))).2.1
    (List.replicate 32 0) (by decide) (by decide)
  exact ⟨(C3_from_hex_contract Unit (List.replicate 63 (Char.ofNat 48))).1 (by decide),
    h2.1, h2.2,
    (C3_from_hex_contract Unit (Char.ofNat 90 :: List.replicate 63 (Char.ofNat 48))).2.2
      (.InvalidChar (Char.ofNat 90)) (by decide) (by decide)⟩

/-- C4: Display reversal: for a TaggedHash built by from_slice from bytes
b0..b31, to_hex is the hex encoding of the reversed sequence b31..b0, and
internal byte 0 is the last hex byte shown (the final two characters are
encodeByte b0). -/
theorem C4_display_reversal : ∀ (T : Type) (S : List Nat) (b0 : Nat) (tl : List Nat),
    S.length = 32 → S = b0 :: tl →
    Hash.from_slice T S = .ok ⟨S⟩ ∧
    Hash.to_hex (⟨S⟩ : Hash T) = formatHex S.reverse ∧
    Hash.to_hex (⟨S⟩ : Hash T) = formatHex tl.reverse ++ encodeByte b0 := by
  intro T S b0 tl hlen hS
  refine ⟨?_, rfl, ?_⟩
  · unfold Hash.from_slice
    rw [if_neg (by omega)]
  · show formatHex S.reverse = _
    rw [hS, List.reverse_cons, formatHex_append]
    simp [formatHex]

/-- Witness for C4 at the 32-byte sequence starting with byte 7. -/
theorem C4_display_reversal_witness :
    Hash.from_slice Unit (7 :: List.replicate 31 0) = .ok ⟨7 :: List.replicate 31 0⟩ ∧
    Hash.to_hex (⟨7 :: List.replicate 31 0⟩ : Hash Unit) =
      formatHex (7 :: List.replicate 31 0).reverse ∧
    Hash.to_hex (⟨7 :: List.replicate 31 0⟩ : Hash Unit) =
      formatHex (List.replicate 31 0).reverse ++ encodeByte 7 :=
  C4_display_reversal Unit (7 :: List.replicate 31 0) 7 (List.replicate 31 0) (by decide) rfl

/-- C5 counterexample: the raw 32-byte string of ASCII zero bytes (valid
UTF-8) offered to the human-readable deserializer is NOT used directly via
from_slice: it is interpreted as UTF-8 text, hex-decoded, and rejected with
InvalidLength(64, 32), refuting the claim that a raw byte string of length
32 bypasses the hex decoding. -/
theorem C5_counterexample_bytes32 :
    deserializeHumanReadable Unit (.bytes (List.replicate 32 48)) =
      some (.error (.custom (.InvalidLength 64 32))) := by decide

/-- C5 (amended): human-readable serde deserialization accepts a UTF-8 text
value, decoded as hex; a byte string is accepted only when it is valid
UTF-8, in which case it too is treated as text and decoded as hex; a
non-UTF-8 byte string is rejected with invalid_value; a raw byte string of
length 32 is never accepted in human-readable mode; direct from_slice of 32
bytes happens only in the compact mode via BytesVisitor. -/
theorem C5_human_readable_deserialize : ∀ (T : Type),
    (∀ s, deserializeHumanReadable T (.text s) = hexVisitorVisitStr T s) ∧
    (∀ v s, utf8Decode v = some s →
      deserializeHumanReadable T (.bytes v) = hexVisitorVisitStr T s) ∧
    (∀ v, utf8Decode v = none →
      deserializeHumanReadable T (.bytes v) = some (.error (.invalidValueBytes v))) ∧
    (∀ v, v.length = 32 → ∃ e, deserializeHumanReadable T (.bytes v) = some (.error e)) ∧
    (∀ v, v.length = 32 → bytesVisitorVisitBytes T v = .ok ⟨v⟩) := by
  intro T
  refine ⟨fun s => rfl, ?_, ?_, ?_, ?_⟩
  · intro v s hdec
    show hexVisitorVisitBytes T v = _
    unfold hexVisitorVisitBytes
    rw [hdec]
  · intro v hdec
    show hexVisitorVisitBytes T v = _
    unfold hexVisitorVisitBytes
    rw [hdec]
  · intro v hv32
    show ∃ e, hexVisitorVisitBytes T v = some (.error e)
    cases hdec : utf8Decode v with
    | none =>
      refine ⟨.invalidValueBytes v, ?_⟩
      unfold hexVisitorVisitBytes
      rw [hdec]
    | some s =>
      have hs : utf8Len s = 32 := by rw [utf8Decode_utf8Len hdec, hv32]
      have hfh : Hash.from_hex T s = some (.error (.InvalidLength 64 32)) := by
        simp only [Hash.from_hex, hashLEN]
        rw [if_pos (by omega), hs]
      have hvb : hexVisitorVisitBytes T v = hexVisitorVisitStr T s := by
        unfold hexVisitorVisitBytes
        rw [hdec]
      refine ⟨.custom (.InvalidLength 64 32), ?_⟩
      rw [hvb]
      unfold hexVisitorVisitStr
      rw [hfh]
  · intro v hv32
    unfold bytesVisitorVisitBytes Hash.from_slice
    rw [if_neg (by omega)]

/-- Witness for C5 (amended) at concrete inputs: empty text; the byte 48 as
UTF-8 text; the invalid byte 255; and the 32-byte string of ASCII 97. -/
theorem C5_human_readable_deserialize_witness :
    deserializeHumanReadable Unit (.text []) = hexVisitorVisitStr Unit [] ∧
    deserializeHumanReadable Unit (.bytes [48]) = hexVisitorVisitStr Unit [Char.ofNat 48] ∧
    deserializeHumanReadable Unit (.bytes [255]) = some (.error (.invalidValueBytes [255])) ∧
    (∃ e, deserializeHumanReadable Unit (.bytes (List.replicate 32 97)) =
      some (.error e)) ∧
    bytesVisitorVisitBytes Unit (List.replicate 32 97) = .ok ⟨List.replicate 32 97⟩ :=
  ⟨(C5_human_readable_deserialize Unit).1 [],
   (C5_human_readable_deserialize Unit).2.1 [48] [Char.ofNat 48] (by decide),
   (C5_human_readable_deserialize Unit).2.2.1 [255] (by decide),
   (C5_human_readable_deserialize Unit).2.2.2.1 (List.replicate 32 97) (by decide),
   (C5_human_readable_deserialize Unit).2.2.2.2 (List.replicate 32 97) (by decide)⟩

/-- C6: from_slice contract: for every byte slice and tag type, from_slice
succeeds exactly on length 32, copying the bytes verbatim in order, and
fails with InvalidLength(32, actual) on any other length. -/
theorem C6_from_slice_contract : ∀ (T : Type) (sl : List Nat),
    (sl.length = 32 → Hash.from_slice T sl = .ok ⟨sl⟩) ∧
    (sl.length ≠ 32 → Hash.from_slice T sl = .error (.InvalidLength 32 sl.length)) := by
  intro T sl
  constructor
  · intro h
    unfold Hash.from_slice
    rw [if_neg (by omega)]
  · intro h
    unfold Hash.from_slice hashLEN
    rw [if_pos h]

/-- Witness for C6 at slices of length 31, 32 and 33. -/
theorem C6_from_slice_contract_witness :
    Hash.from_slice Unit (List.replicate 31 0) = .error (.InvalidLength 32 31) ∧
    Hash.from_slice Unit (List.replicate 32 0) = .ok ⟨List.replicate 32 0⟩ ∧
    Hash.from_slice Unit (List.replicate 33 0) = .error (.InvalidLength 32 33) :=
  ⟨(C6_from_slice_contract Unit (List.replicate 31 0)).2 (by decide),
   (C6_from_slice_contract Unit (List.replicate 32 0)).1 (by decide),
   (C6_from_slice_contract Unit (List.replicate 33 0)).2 (by decide)⟩

/-- C7: fixed-size array decode error precedence: for every instantiated
size N and every input whose byte length is not 2N, the decode fails with
OddLengthString(len) when the length is odd and InvalidLength(2N, len) when
it is even; the odd-length check takes precedence over the size check. -/
theorem C7_array_from_hex_length_errors : ∀ N ∈ hexArraySizes, ∀ s : List Char,
    utf8Len s ≠ 2 * N →
    arrayFromHex N s = some (.error
      (if utf8Len s % 2 = 1 then .OddLengthString (utf8Len s)
       else .InvalidLength (2 * N) (utf8Len s))) := by
  intro N _ s hne
  unfold arrayFromHex
  rw [if_neg hne]
  split_ifs with hodd
  · rfl
  · rfl

/-- Witness for C7: a 17-char input into size 4 fails with
OddLengthString(17); a 4-char input into size 8 fails with
InvalidLength(16, 4). -/
theorem C7_array_from_hex_length_errors_witness :
    arrayFromHex 4 (List.replicate 17 (Char.ofNat 48)) =
      some (.error (.OddLengthString 17)) ∧
    arrayFromHex 8 (List.replicate 4 (Char.ofNat 48)) =
      some (.error (.InvalidLength 16 4)) := by
  constructor
  · rw [C7_array_from_hex_length_errors 4 (by decide) (List.replicate 17 (Char.ofNat 48))
      (by decide)]
    decide
  · rw [C7_array_from_hex_length_errors 8 (by decide) (List.replicate 4 (Char.ofNat 48))
      (by decide)]
    decide

/-- C8: invalid-character detection and tie-break: decoding an even-length
string consisting of a run of hex-digit pairs followed by a pair containing
a non-digit fails with InvalidChar of the offending character; the high
character of a pair is validated before the low one, so when the high
character is invalid its error is reported regardless of the low character. -/
theorem C8_invalid_char_tiebreak : ∀ (p : List Char) (hi lo : Char) (rest : List Char),
    (∀ c ∈ p, (toDigit16 c).isSome) → p.length % 2 = 0 →
    utf8Len (hi :: lo :: rest) % 2 = 0 →
    (toDigit16 hi = none →
      vecFromHex (p ++ hi :: lo :: rest) = some (.error (.InvalidChar hi))) ∧
    (∀ dh, toDigit16 hi = some dh → toDigit16 lo = none →
      vecFromHex (p ++ hi :: lo :: rest) = some (.error (.InvalidChar lo))) := by
  intro p hi lo rest hdig hpar hev
  have hevTot : utf8Len (p ++ hi :: lo :: rest) % 2 = 0 := by
    rw [utf8Len_append, utf8Len_all_digits hdig]
    omega
  constructor
  · intro hhi
    have herr : runFromHexLoop (hi :: lo :: rest) = .err (.InvalidChar hi) :=
      runFromHexLoop_err (hexIterNext_cons_badHigh rest hhi hev)
    exact vecFromHex_err_of_run hevTot
      (runFromHexLoop_append_err p.length p (hi :: lo :: rest) _ le_rfl hdig hpar hev herr)
  · intro dh hhi hlo
    have herr : runFromHexLoop (hi :: lo :: rest) = .err (.InvalidChar lo) :=
      runFromHexLoop_err (hexIterNext_cons_badLow rest hhi hlo hev)
    exact vecFromHex_err_of_run hevTot
      (runFromHexLoop_append_err p.length p (hi :: lo :: rest) _ le_rfl hdig hpar hev herr)

/-- Witness for C8: "Z1" fails with InvalidChar Z (invalid high char), and
"012Y" fails with InvalidChar Y (invalid low char after a valid prefix). -/
theorem C8_invalid_char_tiebreak_witness :
    vecFromHex ([] ++ Char.ofNat 90 :: Char.ofNat 49 :: []) =
      some (.error (.InvalidChar (Char.ofNat 90))) ∧
    vecFromHex ([Char.ofNat 48, Char.ofNat 49] ++ Char.ofNat 50 :: Char.ofNat 89 :: []) =
      some (.error (.InvalidChar (Char.ofNat 89))) :=
  ⟨(C8_invalid_char_tiebreak [] (Char.ofNat 90) (Char.ofNat 49) [] (by decide) (by decide)
      (by decide)).1 (by decide),
   (C8_invalid_char_tiebreak [Char.ofNat 48, Char.ofNat 49] (Char.ofNat 50) (Char.ofNat 89) []
      (by decide) (by decide) (by decide)).2 2 (by decide) (by decide)⟩

/-- C9: REFUTED by the code (the spec is the intent, the code has a slip):
on the single-character string U+00AB (two UTF-8 bytes, hence even length
and non-empty), `HexIterator::next` reaches the second
`iter.next().unwrap()` with the char iterator already exhausted and panics,
so `Vec::<u8>::from_hex`, `[u8; N]::from_hex` and `Hash::<T>::from_hex` all
panic on well-formed UTF-8 input whenever the remaining even-length tail is
a single multi-byte character.  `none` is the model's panic outcome. -/
theorem C9_panic_on_multibyte_remainder :
    vecFromHex [Char.ofNat 171] = none ∧
    arrayFromHex 2 [Char.ofNat 97, Char.ofNat 98, Char.ofNat 171] = none ∧
    Hash.from_hex Unit (List.replicate 62 (Char.ofNat 48) ++ [Char.ofNat 171]) = none := by
  refine ⟨rfl, rfl, rfl⟩

/-- C10: HexIterator termination edge case: on an even-byte-length input of
hex digits the drained iterator yields exactly len/2 bytes and stops; on an
odd-byte-length input every call to next() yields
Some(Err(OddLengthString(len))) leaving the slice untouched, so raw
iteration never reaches None. -/
theorem C10_hexIterator_termination : ∀ sl : List Char,
    ((∀ c ∈ sl, (toDigit16 c).isSome) → utf8Len sl % 2 = 0 →
      ∃ bs, runFromHexLoop sl = .ok bs ∧ 2 * bs.length = utf8Len sl) ∧
    (utf8Len sl % 2 = 1 → ∀ n, iterStates sl n = sl ∧
      hexIterNext (iterStates sl n) = .yieldErr (.OddLengthString (utf8Len sl)) sl) := by
  intro sl
  constructor
  · intro hdig hev
    obtain ⟨bs, hbs⟩ := runFromHexLoop_all_digits sl.length sl le_rfl hdig hev
    exact ⟨bs, hbs, runFromHexLoop_ok_length sl.length sl bs le_rfl hbs⟩
  · intro hodd
    have hstate : ∀ m, iterStates sl m = sl := by
      intro m
      induction m with
      | zero => rfl
      | succ k ihk =>
        show iterStates
          (match hexIterNext sl with
           | .yieldOk _ rest => rest
           | .yieldErr _ rest => rest
           | _ => sl) k = sl
        rw [hexIterNext_odd hodd]
        exact ihk
    intro n
    refine ⟨hstate n, ?_⟩
    rw [hstate n]
    exact hexIterNext_odd hodd

/-- Witness for C10: the two-digit string "ab" decodes to one byte and
stops, while the one-char string "a" (odd length 1) yields the same
OddLengthString(1) error at iteration 3 with the state unchanged. -/
theorem C10_hexIterator_termination_witness :
    (∃ bs, runFromHexLoop [Char.ofNat 97, Char.ofNat 98] = .ok bs ∧
      2 * bs.length = utf8Len [Char.ofNat 97, Char.ofNat 98]) ∧
    (iterStates [Char.ofNat 97] 3 = [Char.ofNat 97] ∧
      hexIterNext (iterStates [Char.ofNat 97] 3) =
        .yieldErr (.OddLengthString (utf8Len [Char.ofNat 97])) [Char.ofNat 97]) :=
  ⟨(C10_hexIterator_termination [Char.ofNat 97, Char.ofNat 98]).1 (by decide) (by decide),
   (C10_hexIterator_termination [Char.ofNat 97]).2 (by decide) 3⟩

end BitcoinHashes
